import Mathlib

/-!
Verification of the Arabic G2P pipeline of this repository (`arabic_g2p.py`).

The pipeline is embedded shallowly over `List Char` (Python strings are
sequences of Unicode code points; every operation the code performs is a
code-point-level operation, so `List Char` is a faithful carrier).  Each
Lean definition below is a direct translation of the corresponding Python
function or table literal; Python `str.replace` and the three `re.sub`
patterns actually used are given bespoke executable models with the exact
left-to-right, non-overlapping semantics of the originals.
-/

namespace AuxiliaryASR

/-- First-match association-list lookup; models Python `dict` lookup over the
literal entries of the source tables (their keys are pairwise distinct, so
first-match agrees with the dict). -/
def alookup {α β : Type} [DecidableEq α] : List (α × β) → α → Option β
  | [], _ => none
  | p :: rest, x => if x = p.1 then some p.2 else alookup rest x

/-- `self.arabic_to_buckw_dict` from the source: Arabic script → Buckwalter. -/
def arabic_to_buckw_dict : List (Char × Char) :=
  [('ب', 'b'), ('ذ', '*'), ('ط', 'T'), ('م', 'm'),
   ('ت', 't'), ('ر', 'r'), ('ظ', 'Z'), ('ن', 'n'),
   ('ث', '^'), ('ز', 'z'), ('ع', 'E'), ('ه', 'h'),
   ('ج', 'j'), ('س', 's'), ('غ', 'g'), ('ح', 'H'),
   ('ق', 'q'), ('ف', 'f'), ('خ', 'x'), ('ص', 'S'),
   ('ش', '$'), ('د', 'd'), ('ض', 'D'), ('ك', 'k'),
   ('أ', '>'), ('ء', '\u0027'), ('ئ', '}'), ('ؤ', '&'),
   ('إ', '<'), ('آ', '|'), ('ا', 'A'), ('ى', 'Y'),
   ('ة', 'p'), ('ي', 'y'), ('ل', 'l'), ('و', 'w'),
   ('ً', 'F'), ('ٌ', 'N'), ('ٍ', 'K'), ('َ', 'a'),
   ('ُ', 'u'), ('ِ', 'i'), ('ّ', '~'), ('ْ', 'o')]

/-- `self.buckwalter_to_ipa` from the source: Buckwalter phoneme strings →
IPA symbol strings (Egyptian Arabic variant). -/
def buckwalter_to_ipa : List (List Char × List Char) :=
  [(['b'], ['b']), (['t'], ['t']), (['^'], ['s']),
   (['j'], ['g']),
   (['H'], ['ħ']), (['x'], ['x']), (['d'], ['d']),
   (['*'], ['z']),
   (['r'], ['r']), (['z'], ['z']), (['s'], ['s']),
   (['$'], ['ʃ']),
   (['S'], ['s', 'ˤ']), (['D'], ['d', 'ˤ']), (['T'], ['t', 'ˤ']), (['Z'], ['z', 'ˤ']),
   (['E'], ['ʕ']),
   (['g'], ['ɣ']),
   (['f'], ['f']), (['q'], ['q']), (['k'], ['k']), (['l'], ['l']),
   (['m'], ['m']), (['n'], ['n']), (['h'], ['h']), (['w'], ['w']), (['y'], ['j']),
   (['>'], ['ʔ']), (['<'], ['ʔ']), (['\u0027'], ['ʔ']), (['}'], ['ʔ']), (['&'], ['ʔ']),
   (['|'], ['ʔ']),
   (['p'], ['t']),
   (['a'], ['a']), (['i'], ['i']), (['u'], ['u']),
   (['a', 'a'], ['a', 'ː']), (['A'], ['a', 'ː']), (['Y'], ['a', 'ː']),
   (['i', 'i'], ['i', 'ː']), (['u', 'u'], ['u', 'ː']),
   (['i', '0'], ['i']), (['i', '1'], ['i']),
   (['u', '0'], ['u']), (['u', '1'], ['u']),
   (['i', 'i', '0'], ['i', 'ː']), (['i', 'i', '1'], ['i', 'ː']),
   (['u', 'u', '0'], ['u', 'ː']), (['u', 'u', '1'], ['u', 'ː']),
   (['I', '0'], ['ɪ']), (['I', '1'], ['ɪ']),
   (['U', '0'], ['ʊ']), (['U', '1'], ['ʊ']),
   (['I', 'I', '0'], ['ɪ', 'ː']), (['I', 'I', '1'], ['ɪ', 'ː']),
   (['U', 'U', '0'], ['ʊ', 'ː']), (['U', 'U', '1'], ['ʊ', 'ː']),
   (['A', 'A'], ['ɑ', 'ː'])]

/-- `self.unambiguousConsonantMap` from the source (hamza variants collapse
to the canonical `<`). -/
def unambiguousConsonantMap : List (Char × Char) :=
  [('b', 'b'), ('*', '*'), ('T', 'T'), ('m', 'm'),
   ('t', 't'), ('r', 'r'), ('Z', 'Z'), ('n', 'n'),
   ('^', '^'), ('z', 'z'), ('E', 'E'), ('h', 'h'),
   ('j', 'j'), ('s', 's'), ('g', 'g'), ('H', 'H'),
   ('q', 'q'), ('f', 'f'), ('x', 'x'), ('S', 'S'),
   ('$', '$'), ('d', 'd'), ('D', 'D'), ('k', 'k'),
   ('>', '<'), ('\u0027', '<'), ('}', '<'), ('&', '<'),
   ('<', '<')]

/-- `self.vowelMap` from the source. -/
def vowelMap : List (Char × List Char) :=
  [('A', ['a', 'a']), ('Y', ['a', 'a']), ('a', ['a']),
   ('i', ['i']), ('u', ['u'])]

/-- `self.diacritics` from the source (defined by the code; unused by the
simplified processing path). -/
def diacritics : List Char := ['o', 'a', 'u', 'i', 'F', 'N', 'K', '~']

/-- `self.consonants` from the source. -/
def consonants : List Char :=
  ['>', '<', '}', '&', '\u0027', 'b', 't', '^', 'j', 'H', 'x', 'd', '*', 'r',
   'z', 's', '$', 'S', 'D', 'T', 'Z', 'E', 'g', 'f', 'q', 'k', 'l', 'm', 'n', 'h', '|']

/-- The six two-character long-vowel digraphs tested by the tokenizer loop
(`['aa', 'ii', 'uu', 'AA', 'II', 'UU']` in the source). -/
def longVowelDigraphs : List (List Char) :=
  [['a', 'a'], ['i', 'i'], ['u', 'u'], ['A', 'A'], ['I', 'I'], ['U', 'U']]

/-- One step of `arabic_to_buckwalter`: map a character through the table,
identity on a miss. -/
def translitChar (c : Char) : Char := (alookup arabic_to_buckw_dict c).getD c

/-- `arabic_to_buckwalter` from the source: per-character transliteration. -/
def arabic_to_buckwalter (w : List Char) : List Char := w.map translitChar

/-- `buckwalter_to_ipa_phoneme` from the source: exact-match lookup, then the
gemination fallback for a two-identical-character unit, then identity. -/
def buckwalter_to_ipa_phoneme (p : List Char) : List Char :=
  match alookup buckwalter_to_ipa p with
  | some v => v
  | none =>
    match p with
    | [c1, c2] =>
      if c1 = c2 then
        let base := (alookup buckwalter_to_ipa [c1]).getD [c1]
        base ++ base
      else [c1, c2]
    | q => q

/-- `l` begins with `p` (executable prefix test). -/
def leadsWith : List Char → List Char → Bool
  | [], _ => true
  | _ :: _, [] => false
  | a :: as, b :: bs => if a = b then leadsWith as bs else false

/-- Fuelled engine for Python `str.replace`: left-to-right scan, on a match
emit the replacement and resume after the matched text (never re-scanning
the replacement), otherwise copy one character.  One unit of fuel is spent
per step, and every step consumes at least one input character whenever
`old` is non-empty, so fuel `l.length` always suffices. -/
def pyReplaceAux (old new : List Char) : Nat → List Char → List Char
  | _, [] => []
  | 0, l => l
  | fuel + 1, c :: cs =>
    if leadsWith old (c :: cs) then
      new ++ pyReplaceAux old new fuel ((c :: cs).drop old.length)
    else
      c :: pyReplaceAux old new fuel cs

/-- Python `str.replace(old, new)` (for the non-empty `old`s the source uses). -/
def pyReplace (old new l : List Char) : List Char := pyReplaceAux old new l.length l

/-- `re.sub(u'^>([^auAw])', u'>a\\1', ...)`: anchored at the string start, so
at most one replacement. -/
def subStartHamza (l : List Char) : List Char :=
  match l with
  | a :: c :: rest =>
    if a = '>' ∧ c ≠ 'a' ∧ c ≠ 'u' ∧ c ≠ 'A' ∧ c ≠ 'w' then '>' :: 'a' :: c :: rest else l
  | _ => l

/-- `re.sub(u' >([^auAw ])', u' >a\\1', ...)`: global left-to-right scan; on
a match the scan resumes after the matched text, otherwise it advances one
character (a list shorter than the pattern can contain no match). -/
def subSpaceHamza : List Char → List Char
  | a :: b :: c :: rest =>
    if a = ' ' ∧ b = '>' ∧ c ≠ 'a' ∧ c ≠ 'u' ∧ c ≠ 'A' ∧ c ≠ 'w' ∧ c ≠ ' ' then
      ' ' :: '>' :: 'a' :: c :: subSpaceHamza rest
    else
      a :: subSpaceHamza (b :: c :: rest)
  | l => l

/-- `re.sub(u'<([^i])', u'<i\\1', ...)`: global left-to-right scan; on a
match the scan resumes after the matched text, otherwise it advances one
character. -/
def subHamzaBelow : List Char → List Char
  | a :: c :: rest =>
    if a = '<' ∧ c ≠ 'i' then '<' :: 'i' :: c :: subHamzaBelow rest
    else a :: subHamzaBelow (c :: rest)
  | l => l

/-- Python `str.split(sep)` for a single separator character: keeps empty
fields, and yields `[""]` on the empty string. -/
def pySplit (sep : Char) : List Char → List (List Char)
  | [] => [[]]
  | c :: cs =>
    if c = sep then [] :: pySplit sep cs
    else
      match pySplit sep cs with
      | [] => [[c]]
      | w :: ws => (c :: w) :: ws

/-- The normalisation chain of `preprocess_utterance`: the ten literal
rewrites and the six hamza rewrites (three of them literal), in the exact
order of the code. -/
def normalizeBw (u : List Char) : List Char :=
  subHamzaBelow (subSpaceHamza (subStartHamza
    (pyReplace ['A', 'u'] ['>', 'u']
    (pyReplace ['A', 'a'] ['>', 'a']
    (pyReplace ['A', 'i'] ['<', 'i']
    (pyReplace ['|'] ['>', 'A']
    (pyReplace ['K'] ['i', 'n']
    (pyReplace ['N'] ['u', 'n']
    (pyReplace ['F'] ['a', 'n']
    (pyReplace [' ', 'A'] [' ']
    (pyReplace ['a', 'Y'] ['Y']
    (pyReplace ['a', 'A'] ['A']
    (pyReplace ['o'] []
    (pyReplace ['ـ'] []
    (pyReplace ['A', 'F'] ['F'] u)))))))))))))))

/-- `preprocess_utterance` from the source: normalise, then split on the
space character. -/
def preprocess_utterance (u : List Char) : List (List Char) :=
  pySplit ' ' (normalizeBw u)

/-- The single-character classification step of the tokenizer loop: the
unambiguous-consonant map first, then the vowel map, then the consonant
set or the two semivowels; anything else is silently skipped (no unit). -/
def singleUnit (c : Char) : List (List Char) :=
  match alookup unambiguousConsonantMap c with
  | some v => [[v]]
  | none =>
    match alookup vowelMap c with
    | some v => [v]
    | none => if c ∈ consonants ∨ c = 'w' ∨ c = 'y' then [[c]] else []

/-- The phoneme-extraction `while` loop of `process_word_simple`: greedy
two-character digraph test when at least two characters remain, otherwise
single-character classification. -/
def tokenize : List Char → List (List Char)
  | [] => []
  | [c] => singleUnit c
  | c1 :: c2 :: rest =>
    if [c1, c2] ∈ longVowelDigraphs then [c1, c2] :: tokenize rest
    else singleUnit c1 ++ tokenize (c2 :: rest)

/-- The silence sentinel `'sil'`. -/
def silSym : List Char := ['s', 'i', 'l']

/-- The `ipa_phonemes` list of `process_word_simple`: transliterate,
tokenize, map each unit to IPA, and drop empty symbols (the loop's
`if ipa_phoneme and ipa_phoneme != ''` filter). -/
def wordIpa (word : List Char) : List (List Char) :=
  ((tokenize (arabic_to_buckwalter word)).map buckwalter_to_ipa_phoneme).filter
    (fun p => !p.isEmpty)

/-- `process_word_simple` from the source: silence sentinel for the empty
word, `-`, and `sil`; otherwise the IPA symbol list, with the sentinel as
fallback if nothing is left. -/
def process_word_simple (word : List Char) : List (List Char) :=
  if word = [] ∨ word = ['-'] ∨ word = silSym then [silSym]
  else if wordIpa word = [] then [silSym]
  else wordIpa word

/-- The whitespace characters stripped by Python `str.strip()` (ASCII part;
the pipeline's classification tables contain no whitespace character of any
kind, so the choice of whitespace set does not affect any output). -/
def pySpaceChars : List Char := [' ', '\t', '\n', '\u000b', '\u000c', '\r']

/-- The per-word branch of `process_utterance`: `-`, `sil` and blank words
resolve to the sentinel, everything else goes to `process_word_simple`. -/
def wordPhonemeLists (l : List Char) : List (List (List Char)) :=
  (preprocess_utterance (arabic_to_buckwalter l)).map (fun w =>
    if w = ['-'] ∨ w = silSym ∨ (∀ c ∈ w, c ∈ pySpaceChars) then [silSym]
    else process_word_simple w)

/-- The word separator `' + '` of the final join. -/
def sepPlus : List Char := [' ', '+', ' ']

/-- Python `sep.join(pieces)`. -/
def joinSep (sep : List Char) : List (List Char) → List Char
  | [] => []
  | [w] => w
  | w :: ws => w ++ sep ++ joinSep sep ws

/-- `process_utterance` from the source: transliterate, normalize and split,
resolve every word to its symbol list, join symbols with a space inside a
word and words with `' + '`.  The Python `try`/`except` wrapper is modelled
by totality: every stage of this embedding is a total function, so the
exception branch (which would return the sentinel) is unreachable. -/
def process_utterance (l : List Char) : List Char :=
  joinSep sepPlus ((wordPhonemeLists l).map (joinSep [' ']))

/-- All phoneme symbols emitted for an utterance, in order (the strings that
`process_utterance` joins with spaces and `' + '`). -/
def utteranceSymbols (l : List Char) : List (List Char) :=
  (wordPhonemeLists l).flatten

/-- Occurrences of `c` in a character list. -/
def countCh (c : Char) : List Char → Nat
  | [] => 0
  | x :: xs => (if x = c then 1 else 0) + countCh c xs

/-- Number of positions at which `p` occurs as a contiguous substring. -/
def countSubstr (p : List Char) : List Char → Nat
  | [] => 0
  | l@(_ :: cs) => (if leadsWith p l then 1 else 0) + countSubstr p cs

/-! ### Basic lemmas about the embedded primitives -/

theorem alookup_mem {α β : Type} [DecidableEq α] (d : List (α × β)) (x : α) (v : β)
    (h : alookup d x = some v) : (x, v) ∈ d := by
  induction d with
  | nil => simp [alookup] at h
  | cons p rest ih =>
    rw [alookup] at h
    split at h
    · next hx =>
      injection h with h
      subst hx
      subst h
      exact List.mem_cons_self _ _
    · exact List.mem_cons_of_mem _ (ih h)

theorem leadsWith_eq_append :
    ∀ (p l : List Char), leadsWith p l = true → l = p ++ l.drop p.length := by
  intro p
  induction p with
  | nil => intro l _; simp
  | cons a as ih =>
    intro l h
    cases l with
    | nil => simp [leadsWith] at h
    | cons b bs =>
      rw [leadsWith] at h
      split at h
      · next hab =>
        subst hab
        simpa using ih bs h
      · exact absurd h (by simp)

theorem countCh_append (c : Char) (a b : List Char) :
    countCh c (a ++ b) = countCh c a + countCh c b := by
  induction a with
  | nil => simp [countCh]
  | cons x xs ih => simp [countCh, ih, Nat.add_assoc]

theorem countCh_pyReplaceAux (ch : Char) (old new : List Char)
    (h : countCh ch old = countCh ch new) :
    ∀ (fuel : Nat) (l : List Char), countCh ch (pyReplaceAux old new fuel l) = countCh ch l := by
  intro fuel
  induction fuel with
  | zero => intro l; cases l <;> simp [pyReplaceAux]
  | succ n ih =>
    intro l
    cases l with
    | nil => simp [pyReplaceAux]
    | cons c cs =>
      rw [pyReplaceAux]
      split
      · next hlw =>
        rw [countCh_append, ih]
        conv_rhs => rw [leadsWith_eq_append old (c :: cs) hlw]
        rw [countCh_append, h]
      · simp [countCh, ih]

theorem countCh_pyReplace (ch : Char) (old new l : List Char)
    (h : countCh ch old = countCh ch new) :
    countCh ch (pyReplace old new l) = countCh ch l :=
  countCh_pyReplaceAux ch old new h l.length l

theorem countCh_space_subStartHamza (l : List Char) :
    countCh ' ' (subStartHamza l) = countCh ' ' l := by
  rw [subStartHamza.eq_def]
  split
  · next a c rest =>
    split
    · next hcond => simp [countCh, hcond.1]
    · rfl
  · rfl

theorem countCh_space_subSpaceHamza (l : List Char) :
    countCh ' ' (subSpaceHamza l) = countCh ' ' l := by
  induction l using subSpaceHamza.induct with
  | case1 a b c rest hcond ih =>
    rw [subSpaceHamza, if_pos hcond]
    simp [countCh, ih, hcond.1, hcond.2.1, hcond.2.2.2.2.2.2]
  | case2 a b c rest hcond ih =>
    rw [subSpaceHamza, if_neg hcond]
    simp [countCh, ih]
  | case3 l hne =>
    rw [subSpaceHamza.eq_def]
    split
    · next a b c rest => exact absurd rfl (hne a b c rest)
    · rfl

theorem countCh_space_subHamzaBelow (l : List Char) :
    countCh ' ' (subHamzaBelow l) = countCh ' ' l := by
  induction l using subHamzaBelow.induct with
  | case1 a c rest hcond ih =>
    rw [subHamzaBelow, if_pos hcond]
    simp [countCh, ih, hcond.1]
  | case2 a c rest hcond ih =>
    rw [subHamzaBelow, if_neg hcond]
    simp [countCh, ih]
  | case3 l hne =>
    rw [subHamzaBelow.eq_def]
    split
    · next a c rest => exact absurd rfl (hne a c rest)
    · rfl

theorem dict_vals_ne_space : ∀ p ∈ arabic_to_buckw_dict, p.2 ≠ ' ' := by decide

theorem translitChar_space_iff (c : Char) : translitChar c = ' ' ↔ c = ' ' := by
  constructor
  · intro h
    rw [translitChar] at h
    cases hl : alookup arabic_to_buckw_dict c with
    | none => rw [hl] at h; simpa using h
    | some v =>
      rw [hl] at h
      simp at h
      exact absurd h (dict_vals_ne_space (c, v) (alookup_mem _ _ _ hl))
  · intro h
    subst h
    decide

theorem countCh_space_arabic_to_buckwalter (l : List Char) :
    countCh ' ' (arabic_to_buckwalter l) = countCh ' ' l := by
  induction l with
  | nil => rfl
  | cons x xs ih =>
    have hx : (translitChar x = ' ') = (x = ' ') := propext (translitChar_space_iff x)
    rw [arabic_to_buckwalter] at ih ⊢
    simp only [List.map_cons, countCh, hx, ih]

theorem pySplit_ne_nil (sep : Char) (l : List Char) : pySplit sep l ≠ [] := by
  induction l with
  | nil => simp [pySplit]
  | cons c cs _ =>
    rw [pySplit]
    split
    · simp
    · cases h : pySplit sep cs with
      | nil => simp
      | cons w ws => simp

theorem pySplit_length (sep : Char) (l : List Char) :
    (pySplit sep l).length = countCh sep l + 1 := by
  induction l with
  | nil => rfl
  | cons c cs ih =>
    rw [pySplit, countCh]
    split
    · next hc =>
      simp only [hc, if_pos rfl, List.length_cons, ih]
      omega
    · next hc =>
      cases h : pySplit sep cs with
      | nil => exact absurd h (pySplit_ne_nil sep cs)
      | cons w ws =>
        rw [h] at ih
        simp [hc, ← ih]

/-! ### Every emitted phoneme symbol is whitespace-free and plus-free -/

/-- A character that may appear inside an emitted phoneme symbol: not
whitespace and not the `+` delimiter. -/
abbrev goodChar (c : Char) : Prop := c.isWhitespace = false ∧ c ≠ '+'

theorem ucm_vals_good : ∀ p ∈ unambiguousConsonantMap, goodChar p.2 := by decide

theorem vowelMap_vals_good : ∀ p ∈ vowelMap, ∀ c ∈ p.2, goodChar c := by decide

theorem consonants_good : ∀ c ∈ consonants, goodChar c := by decide

theorem digraphs_good : ∀ d ∈ longVowelDigraphs, ∀ c ∈ d, goodChar c := by decide

theorem ipa_vals_good : ∀ p ∈ buckwalter_to_ipa, ∀ c ∈ p.2, goodChar c := by decide

theorem ipa_vals_ne_nil : ∀ p ∈ buckwalter_to_ipa, p.2 ≠ [] := by decide

theorem silSym_good : ∀ c ∈ silSym, goodChar c := by decide

theorem singleUnit_good (c : Char) : ∀ p ∈ singleUnit c, ∀ ch ∈ p, goodChar ch := by
  intro p hp ch hch
  cases h1 : alookup unambiguousConsonantMap c with
  | some v =>
    simp only [singleUnit, h1] at hp
    simp only [List.mem_singleton] at hp
    subst hp
    simp only [List.mem_singleton] at hch
    subst hch
    exact ucm_vals_good (c, ch) (alookup_mem _ _ _ h1)
  | none =>
    cases h2 : alookup vowelMap c with
    | some v =>
      simp only [singleUnit, h1, h2] at hp
      simp only [List.mem_singleton] at hp
      subst hp
      exact vowelMap_vals_good (c, p) (alookup_mem _ _ _ h2) ch hch
    | none =>
      by_cases hc : c ∈ consonants ∨ c = 'w' ∨ c = 'y'
      · simp only [singleUnit, h1, h2, if_pos hc] at hp
        simp only [List.mem_singleton] at hp
        subst hp
        simp only [List.mem_singleton] at hch
        subst hch
        rcases hc with hc | hc | hc
        · exact consonants_good ch hc
        · subst hc; decide
        · subst hc; decide
      · simp only [singleUnit, h1, h2, if_neg hc] at hp
        simp at hp

theorem tokenize_good : ∀ (l : List Char), ∀ p ∈ tokenize l, ∀ ch ∈ p, goodChar ch := by
  intro l
  induction l using tokenize.induct with
  | case1 => intro p hp; simp [tokenize] at hp
  | case2 c =>
    intro p hp
    exact singleUnit_good c p (by simpa [tokenize] using hp)
  | case3 c1 c2 rest hdig ih =>
    intro p hp ch hch
    rw [tokenize, if_pos hdig] at hp
    rcases List.mem_cons.mp hp with h | h
    · subst h; exact digraphs_good _ hdig ch hch
    · exact ih p h ch hch
  | case4 c1 c2 rest hdig ih =>
    intro p hp ch hch
    rw [tokenize, if_neg hdig] at hp
    rcases List.mem_append.mp hp with h | h
    · exact singleUnit_good c1 p h ch hch
    · exact ih p h ch hch

theorem buckwalter_to_ipa_phoneme_good (p : List Char) (hp : ∀ ch ∈ p, goodChar ch) :
    ∀ ch ∈ buckwalter_to_ipa_phoneme p, goodChar ch := by
  intro ch hch
  cases h1 : alookup buckwalter_to_ipa p with
  | some v =>
    simp only [buckwalter_to_ipa_phoneme, h1] at hch
    exact ipa_vals_good (p, v) (alookup_mem _ _ _ h1) ch hch
  | none =>
    rcases p with _ | ⟨c1, _ | ⟨c2, _ | ⟨c3, t⟩⟩⟩
    · simp only [buckwalter_to_ipa_phoneme, h1] at hch
      simp at hch
    · simp only [buckwalter_to_ipa_phoneme, h1] at hch
      exact hp ch hch
    · simp only [buckwalter_to_ipa_phoneme, h1] at hch
      by_cases hcc : c1 = c2
      · rw [if_pos hcc] at hch
        cases h2 : alookup buckwalter_to_ipa [c1] with
        | some v =>
          rw [h2] at hch
          simp only [Option.getD_some] at hch
          rcases List.mem_append.mp hch with h | h
          · exact ipa_vals_good ([c1], v) (alookup_mem _ _ _ h2) ch h
          · exact ipa_vals_good ([c1], v) (alookup_mem _ _ _ h2) ch h
        | none =>
          rw [h2] at hch
          simp only [Option.getD_none] at hch
          rcases List.mem_append.mp hch with h | h <;>
            · simp only [List.mem_singleton] at h
              subst h
              exact hp ch (by simp)
      · rw [if_neg hcc] at hch
        exact hp ch hch
    · simp only [buckwalter_to_ipa_phoneme, h1] at hch
      exact hp ch hch

theorem buckwalter_to_ipa_phoneme_ne_nil (p : List Char) (hp : p ≠ []) :
    buckwalter_to_ipa_phoneme p ≠ [] := by
  cases h1 : alookup buckwalter_to_ipa p with
  | some v =>
    simp only [buckwalter_to_ipa_phoneme, h1]
    exact ipa_vals_ne_nil (p, v) (alookup_mem _ _ _ h1)
  | none =>
    rcases p with _ | ⟨c1, _ | ⟨c2, _ | ⟨c3, t⟩⟩⟩
    · exact absurd rfl hp
    · simp [buckwalter_to_ipa_phoneme, h1]
    · simp only [buckwalter_to_ipa_phoneme, h1]
      by_cases hcc : c1 = c2
      · rw [if_pos hcc]
        cases h2 : alookup buckwalter_to_ipa [c1] with
        | some v =>
          simp only [Option.getD_some]
          have := ipa_vals_ne_nil ([c1], v) (alookup_mem _ _ _ h2)
          simp only [ne_eq, List.append_eq_nil]
          exact fun h => this h.1
        | none =>
          simp
      · rw [if_neg hcc]
        simp
    · simp [buckwalter_to_ipa_phoneme, h1]

theorem mem_wordIpa_good (w : List Char) : ∀ sym ∈ wordIpa w, ∀ ch ∈ sym, goodChar ch := by
  intro sym hsym
  rw [wordIpa] at hsym
  have h1 := List.mem_of_mem_filter hsym
  rcases List.mem_map.mp h1 with ⟨p, hp, rfl⟩
  exact buckwalter_to_ipa_phoneme_good p (tokenize_good _ p hp)

theorem process_word_simple_good (w : List Char) :
    ∀ sym ∈ process_word_simple w, ∀ ch ∈ sym, goodChar ch := by
  intro sym hsym
  rw [process_word_simple] at hsym
  split at hsym
  · simp only [List.mem_singleton] at hsym
    subst hsym
    exact silSym_good
  · split at hsym
    · simp only [List.mem_singleton] at hsym
      subst hsym
      exact silSym_good
    · exact mem_wordIpa_good w sym hsym

theorem process_word_simple_ne_nil (w : List Char) : process_word_simple w ≠ [] := by
  rw [process_word_simple]
  split
  · simp
  · split
    · simp
    · next h => exact h

theorem mem_process_word_simple_ne_nil (w : List Char) :
    ∀ sym ∈ process_word_simple w, sym ≠ [] := by
  intro sym hsym
  rw [process_word_simple] at hsym
  split at hsym
  · simp only [List.mem_singleton] at hsym
    subst hsym
    simp [silSym]
  · split at hsym
    · simp only [List.mem_singleton] at hsym
      subst hsym
      simp [silSym]
    · rw [wordIpa] at hsym
      have hfil := List.of_mem_filter hsym
      simpa using hfil

theorem wordPhonemeLists_good (l : List Char) :
    ∀ wl ∈ wordPhonemeLists l, ∀ sym ∈ wl, ∀ ch ∈ sym, goodChar ch := by
  intro wl hwl
  rw [wordPhonemeLists] at hwl
  rcases List.mem_map.mp hwl with ⟨w, _, rfl⟩
  split
  · intro sym hsym
    simp only [List.mem_singleton] at hsym
    subst hsym
    exact silSym_good
  · exact process_word_simple_good w

theorem wordPhonemeLists_ne_nil (l : List Char) : wordPhonemeLists l ≠ [] := by
  intro h
  rw [wordPhonemeLists] at h
  exact pySplit_ne_nil ' ' _ (by simpa using h)

theorem mem_wordPhonemeLists_ne_nil (l : List Char) :
    ∀ wl ∈ wordPhonemeLists l, wl ≠ [] ∧ ∀ sym ∈ wl, sym ≠ [] := by
  intro wl hwl
  rw [wordPhonemeLists] at hwl
  rcases List.mem_map.mp hwl with ⟨w, _, rfl⟩
  split
  · refine ⟨by simp, ?_⟩
    intro sym hsym
    simp only [List.mem_singleton] at hsym
    subst hsym
    simp [silSym]
  · exact ⟨process_word_simple_ne_nil w, mem_process_word_simple_ne_nil w⟩

/-! ### Joining and counting the word separator -/

theorem joinSep_cons_cons (sep w w2 : List Char) (ws : List (List Char)) :
    joinSep sep (w :: w2 :: ws) = w ++ (sep ++ joinSep sep (w2 :: ws)) := by
  rw [joinSep, List.append_assoc]
  simp

theorem joinSep_cons (sep w : List Char) (ws : List (List Char)) :
    ∃ t, joinSep sep (w :: ws) = w ++ t := by
  cases ws with
  | nil => exact ⟨[], by simp [joinSep]⟩
  | cons w2 ws2 => exact ⟨sep ++ joinSep sep (w2 :: ws2), joinSep_cons_cons sep w w2 ws2⟩

theorem joinSep_ne_nil (sep w : List Char) (ws : List (List Char)) (hw : w ≠ []) :
    joinSep sep (w :: ws) ≠ [] := by
  rcases joinSep_cons sep w ws with ⟨t, ht⟩
  rw [ht]
  simp [hw]

theorem mem_joinSep (sep : List Char) :
    ∀ (ws : List (List Char)) (c : Char), c ∈ joinSep sep ws → c ∈ sep ∨ ∃ w ∈ ws, c ∈ w := by
  intro ws
  induction ws with
  | nil => intro c h; simp [joinSep] at h
  | cons w ws ih =>
    intro c h
    cases ws with
    | nil =>
      refine Or.inr ⟨w, by simp, ?_⟩
      simpa [joinSep] using h
    | cons w2 ws2 =>
      rw [joinSep_cons_cons] at h
      rcases List.mem_append.mp h with h | h
      · exact Or.inr ⟨w, by simp, h⟩
      · rcases List.mem_append.mp h with h | h
        · exact Or.inl h
        · rcases ih c h with h | ⟨w', hw', hc⟩
          · exact Or.inl h
          · exact Or.inr ⟨w', List.mem_cons_of_mem _ hw', hc⟩

theorem head_of_leadsWith_sepPlus (x : Char) (l : List Char)
    (h : leadsWith sepPlus (x :: l) = true) : l.head? = some '+' := by
  have h1 : leadsWith ['+', ' '] l = true := by
    rw [show sepPlus = ' ' :: ['+', ' '] from rfl, leadsWith] at h
    split at h
    · exact h
    · exact absurd h (by simp)
  cases l with
  | nil => rw [leadsWith] at h1; exact absurd h1 (by simp)
  | cons y l' =>
    rw [leadsWith] at h1
    split at h1
    · next hy => simp [← hy]
    · exact absurd h1 (by simp)

theorem countSubstr_append_left (w rest : List Char) (hw : '+' ∉ w)
    (hr : rest.head? ≠ some '+') :
    countSubstr sepPlus (w ++ rest) = countSubstr sepPlus rest := by
  induction w with
  | nil => simp
  | cons c w' ih =>
    have hw' : '+' ∉ w' := fun hmem => hw (List.mem_cons_of_mem _ hmem)
    have hlw : leadsWith sepPlus (c :: (w' ++ rest)) = false := by
      cases hl : leadsWith sepPlus (c :: (w' ++ rest)) with
      | false => rfl
      | true =>
        exfalso
        have hhead := head_of_leadsWith_sepPlus _ _ hl
        cases w' with
        | nil => exact hr (by simpa using hhead)
        | cons c2 w'' =>
          simp only [List.cons_append, List.head?_cons, Option.some.injEq] at hhead
          exact hw (by simp [hhead])
    rw [List.cons_append, countSubstr, hlw]
    simp [ih hw']

theorem countSubstr_sepPlus_cons (rest : List Char) (hr : rest.head? ≠ some '+') :
    countSubstr sepPlus (sepPlus ++ rest) = 1 + countSubstr sepPlus rest := by
  have e1 : leadsWith sepPlus (' ' :: '+' :: ' ' :: rest) = true := by
    simp [sepPlus, leadsWith]
  have e2 : leadsWith sepPlus ('+' :: ' ' :: rest) = false := by
    simp [sepPlus, leadsWith]
  have e3 : leadsWith sepPlus (' ' :: rest) = false := by
    cases hl : leadsWith sepPlus (' ' :: rest) with
    | false => rfl
    | true => exact absurd (head_of_leadsWith_sepPlus _ _ hl) hr
  show countSubstr sepPlus (' ' :: '+' :: ' ' :: rest) = 1 + countSubstr sepPlus rest
  rw [countSubstr, countSubstr, countSubstr, e1, e2, e3]
  simp

theorem joinSep_head_ne_plus (ws : List (List Char)) (hws : ∀ w ∈ ws, '+' ∉ w) :
    (joinSep sepPlus ws).head? ≠ some '+' := by
  cases ws with
  | nil => simp [joinSep]
  | cons w ws' =>
    cases ws' with
    | nil =>
      show w.head? ≠ some '+'
      cases w with
      | nil => simp
      | cons c w' =>
        simp only [List.head?_cons, ne_eq, Option.some.injEq]
        intro hc
        exact hws (c :: w') (by simp) (by simp [hc])
    | cons w2 ws2 =>
      rw [joinSep_cons_cons]
      cases w with
      | nil => simp [sepPlus]
      | cons c w' =>
        simp only [List.cons_append, List.head?_cons, ne_eq, Option.some.injEq]
        intro hc
        exact hws (c :: w') (by simp) (by simp [hc])

theorem countSubstr_joinSep (ws : List (List Char)) (hne : ws ≠ [])
    (hws : ∀ w ∈ ws, '+' ∉ w) :
    countSubstr sepPlus (joinSep sepPlus ws) + 1 = ws.length := by
  induction ws with
  | nil => exact absurd rfl hne
  | cons w ws' ih =>
    cases ws' with
    | nil =>
      have h0 : countSubstr sepPlus w = 0 := by
        have := countSubstr_append_left w [] (hws w (by simp)) (by simp)
        simpa using this
      show countSubstr sepPlus w + 1 = 1
      rw [h0]
    | cons w2 ws2 =>
      have hw : '+' ∉ w := hws w (by simp)
      have hws' : ∀ x ∈ w2 :: ws2, '+' ∉ x := fun x hx => hws x (List.mem_cons_of_mem _ hx)
      rw [joinSep_cons_cons]
      rw [countSubstr_append_left w _ hw (by simp [sepPlus])]
      rw [countSubstr_sepPlus_cons _ (joinSep_head_ne_plus _ hws')]
      have hlen := ih (by simp) hws'
      simp only [List.length_cons] at hlen ⊢
      omega

/-! ### Space-count preservation through the normalizer -/

theorem countCh_space_normalizeBw (u : List Char) :
    countCh ' ' (normalizeBw u) = countCh ' ' u := by
  rw [normalizeBw]
  rw [countCh_space_subHamzaBelow, countCh_space_subSpaceHamza, countCh_space_subStartHamza]
  rw [countCh_pyReplace ' ' ['A', 'u'] ['>', 'u'] _ (by decide)]
  rw [countCh_pyReplace ' ' ['A', 'a'] ['>', 'a'] _ (by decide)]
  rw [countCh_pyReplace ' ' ['A', 'i'] ['<', 'i'] _ (by decide)]
  rw [countCh_pyReplace ' ' ['|'] ['>', 'A'] _ (by decide)]
  rw [countCh_pyReplace ' ' ['K'] ['i', 'n'] _ (by decide)]
  rw [countCh_pyReplace ' ' ['N'] ['u', 'n'] _ (by decide)]
  rw [countCh_pyReplace ' ' ['F'] ['a', 'n'] _ (by decide)]
  rw [countCh_pyReplace ' ' [' ', 'A'] [' '] _ (by decide)]
  rw [countCh_pyReplace ' ' ['a', 'Y'] ['Y'] _ (by decide)]
  rw [countCh_pyReplace ' ' ['a', 'A'] ['A'] _ (by decide)]
  rw [countCh_pyReplace ' ' ['o'] [] _ (by decide)]
  rw [countCh_pyReplace ' ' ['ـ'] [] _ (by decide)]
  rw [countCh_pyReplace ' ' ['A', 'F'] ['F'] _ (by decide)]

theorem preprocess_utterance_length (u : List Char) :
    (preprocess_utterance u).length = countCh ' ' u + 1 := by
  rw [preprocess_utterance, pySplit_length, countCh_space_normalizeBw]

/-! ### Totality and idempotence helpers -/

theorem process_utterance_ne_nil (l : List Char) : process_utterance l ≠ [] := by
  rw [process_utterance]
  cases hW : wordPhonemeLists l with
  | nil => exact absurd hW (wordPhonemeLists_ne_nil l)
  | cons wl wls =>
    rw [List.map_cons]
    have hmem : wl ∈ wordPhonemeLists l := by rw [hW]; simp
    rcases mem_wordPhonemeLists_ne_nil l wl hmem with ⟨hwl, hsyms⟩
    cases wl with
    | nil => exact absurd rfl hwl
    | cons sym syms =>
      exact joinSep_ne_nil sepPlus _ _ (joinSep_ne_nil [' '] sym syms (hsyms sym (by simp)))

theorem dict_vals_not_keys :
    ∀ p ∈ arabic_to_buckw_dict, alookup arabic_to_buckw_dict p.2 = none := by decide

theorem translitChar_idem (c : Char) : translitChar (translitChar c) = translitChar c := by
  cases h : alookup arabic_to_buckw_dict c with
  | none =>
    have hc : translitChar c = c := by rw [translitChar, h]; rfl
    rw [hc]
    exact hc
  | some v =>
    have hc : translitChar c = v := by rw [translitChar, h]; rfl
    rw [hc, translitChar, dict_vals_not_keys (c, v) (alookup_mem _ _ _ h)]
    rfl

/-! ### The claims -/

/-- Claim C1: for every input string, `process_utterance` returns a non-empty
string.  The `try`/`except` guard of the source (which would return `sil` on
an exception) is modelled by the totality of this embedding: every stage is
a total function, so no exception can reach the caller and the result is
always the non-empty rendered string. -/
theorem claim1_totality (l : List Char) : process_utterance l ≠ [] :=
  process_utterance_ne_nil l

/-- Claim C2: `process_utterance` yields exactly `sil` on the inputs `-`,
`sil` and the empty string. -/
theorem claim2_silence_idempotence :
    process_utterance ['-'] = silSym ∧ process_utterance ['s', 'i', 'l'] = silSym ∧
      process_utterance [] = silSym := by
  decide

/-- Claim C3: the word شكرا transliterates to `$krA`, tokenizes to the units
`$`, `k`, `r`, `aa`, maps unit-wise to the symbols `ʃ`, `k`, `r`, `aː`, and
`process_utterance` returns exactly the string `ʃ k r aː`. -/
theorem claim3_deterministic_example :
    arabic_to_buckwalter ['ش', 'ك', 'ر', 'ا'] = ['$', 'k', 'r', 'A'] ∧
    tokenize ['$', 'k', 'r', 'A'] = [['$'], ['k'], ['r'], ['a', 'a']] ∧
    (tokenize ['$', 'k', 'r', 'A']).map buckwalter_to_ipa_phoneme =
      [['ʃ'], ['k'], ['r'], ['a', 'ː']] ∧
    process_utterance ['ش', 'ك', 'ر', 'ا'] = ['ʃ', ' ', 'k', ' ', 'r', ' ', 'a', 'ː'] := by
  decide

/-- Claim C4 counterexample: the claim says every short vowel letter is sent
by the vowel map to a two-character unit, but the map sends `a` to the
one-character unit `a` (and likewise `i` and `u`); only the long-alif
letters `A` and `Y` receive the two-character unit `aa`. -/
theorem claim4_counterexample :
    alookup vowelMap 'a' = some ['a'] ∧ (['a'] : List Char).length ≠ 2 := by decide

/-- Claim C4 amended: in the tokenizer's single-character vowel branch the
short vowel letters `a`, `i`, `u` are emitted as themselves (one-character
units), while the long-alif letters `A` and `Y` are emitted as the
two-character unit `aa`. -/
theorem claim4_amended :
    alookup vowelMap 'a' = some ['a'] ∧ alookup vowelMap 'i' = some ['i'] ∧
    alookup vowelMap 'u' = some ['u'] ∧ alookup vowelMap 'A' = some ['a', 'a'] ∧
    alookup vowelMap 'Y' = some ['a', 'a'] ∧
    tokenize ['a'] = [['a']] ∧ tokenize ['A'] = [['a', 'a']] := by
  decide

/-- Claim C5: for every input, the number of occurrences of the
three-character separator `' + '` in the output of `process_utterance` is
exactly one less than the number of space-separated words of the input
(the length of the Python-style split of the input on the space
character); no normalization rule changes the number of word boundaries. -/
theorem claim5_word_count_preservation (l : List Char) :
    countSubstr sepPlus (process_utterance l) + 1 = (pySplit ' ' l).length := by
  have hplus : ∀ s ∈ (wordPhonemeLists l).map (joinSep [' ']), '+' ∉ s := by
    intro s hs
    rcases List.mem_map.mp hs with ⟨wl, hwl, rfl⟩
    intro hmem
    rcases mem_joinSep [' '] wl '+' hmem with h | ⟨sym, hsym, hc⟩
    · simp at h
    · exact (wordPhonemeLists_good l wl hwl sym hsym '+' hc).2 rfl
  rw [process_utterance]
  rw [countSubstr_joinSep _
    (by intro h; exact wordPhonemeLists_ne_nil l (by simpa using h)) hplus]
  rw [List.length_map, wordPhonemeLists, List.length_map, preprocess_utterance_length]
  rw [countCh_space_arabic_to_buckwalter, pySplit_length]

/-- Claim C6 counterexample: the claim says a word whose characters all lie
outside the transliteration table passes through the whole pipeline
unchanged, but `hello` (entirely outside the table) comes out as `h l l`:
normalization deletes `o` and the tokenizer silently skips `e`. -/
theorem claim6_counterexample :
    (∀ c ∈ (['h', 'e', 'l', 'l', 'o'] : List Char), alookup arabic_to_buckw_dict c = none) ∧
      process_utterance ['h', 'e', 'l', 'l', 'o'] ≠ ['h', 'e', 'l', 'l', 'o'] := by
  decide

/-- Claim C6 amended: a word whose characters all lie outside the
transliteration table passes through the transliterator stage unchanged
character-by-character; the later stages (normalization, tokenization) may
still delete or remap such characters. -/
theorem claim6_amended (w : List Char)
    (h : ∀ c ∈ w, alookup arabic_to_buckw_dict c = none) :
    arabic_to_buckwalter w = w := by
  induction w with
  | nil => rfl
  | cons c cs ih =>
    have hc : translitChar c = c := by rw [translitChar, h c (by simp)]; rfl
    show translitChar c :: arabic_to_buckwalter cs = c :: cs
    rw [hc, ih (fun x hx => h x (List.mem_cons_of_mem _ hx))]

theorem claim6_amended_witness :
    arabic_to_buckwalter ['h', 'e', 'l', 'l', 'o'] = ['h', 'e', 'l', 'l', 'o'] :=
  claim6_amended ['h', 'e', 'l', 'l', 'o'] (by decide)

/-- Claim C7: every phoneme symbol the pipeline emits contains no whitespace
character and no occurrence of `+`, so splitting the rendered output on
whitespace and `+` is unambiguous. -/
theorem claim7_symbol_alphabet (l : List Char) (sym : List Char)
    (hsym : sym ∈ utteranceSymbols l) (c : Char) (hc : c ∈ sym) :
    c.isWhitespace = false ∧ c ≠ '+' := by
  rw [utteranceSymbols] at hsym
  rcases List.mem_flatten.mp hsym with ⟨wl, hwl, hmem⟩
  exact wordPhonemeLists_good l wl hwl sym hmem c hc

theorem claim7_witness : ('ʃ').isWhitespace = false ∧ 'ʃ' ≠ '+' :=
  claim7_symbol_alphabet ['ش', 'ك', 'ر', 'ا'] ['ʃ'] (by decide) 'ʃ' (by decide)

/-- Claim C8: a two-identical-character unit that is not an exact key of the
symbol table maps to the symbol of the single repeated character (or the
character itself if unmapped) doubled; in particular `bb` maps to `bb`, and
the mapper never returns an empty symbol for a non-empty unit. -/
theorem claim8_gemination_fallback :
    (∀ c : Char, alookup buckwalter_to_ipa [c, c] = none →
      buckwalter_to_ipa_phoneme [c, c] =
        (alookup buckwalter_to_ipa [c]).getD [c] ++ (alookup buckwalter_to_ipa [c]).getD [c]) ∧
    buckwalter_to_ipa_phoneme ['b', 'b'] = ['b', 'b'] ∧
    (∀ u : List Char, u ≠ [] → buckwalter_to_ipa_phoneme u ≠ []) := by
  refine ⟨?_, by decide, buckwalter_to_ipa_phoneme_ne_nil⟩
  intro c h
  simp [buckwalter_to_ipa_phoneme, h]

theorem claim8_witness :
    buckwalter_to_ipa_phoneme ['z', 'z'] = ['z', 'z'] ∧
      buckwalter_to_ipa_phoneme ['Q'] ≠ [] := by
  constructor
  · have h := claim8_gemination_fallback.1 'z' (by decide)
    rw [h]
    decide
  · exact claim8_gemination_fallback.2.2 ['Q'] (by decide)

/-- Claim C9 counterexample: the claim says re-running the pipeline on its
own output yields either the same output or `sil`, but on the input `rk`
the first run yields `r k` and the second run yields `r + k` (each phoneme
symbol becomes its own word), which is neither. -/
theorem claim9_counterexample :
    ¬ (process_utterance (process_utterance ['r', 'k']) = process_utterance ['r', 'k'] ∨
       process_utterance (process_utterance ['r', 'k']) = silSym) := by
  decide

/-- Claim C9 amended: re-running the pipeline on its own output always
returns normally with a non-empty result (the totality part of the claim),
but the result need not equal the first output nor `sil`: a multi-phoneme
word is re-split into one word per symbol. -/
theorem claim9_amended (l : List Char) :
    process_utterance (process_utterance l) ≠ [] :=
  process_utterance_ne_nil (process_utterance l)

/-- Claim C10: the transliterator is idempotent — no character the table
emits is itself a key of the table, so transliterating an
already-transliterated string is a no-op (in particular the second
transliteration inside `process_word_simple`). -/
theorem claim10_transliteration_idempotent (l : List Char) :
    arabic_to_buckwalter (arabic_to_buckwalter l) = arabic_to_buckwalter l := by
  induction l with
  | nil => rfl
  | cons c cs ih =>
    show translitChar (translitChar c) :: arabic_to_buckwalter (arabic_to_buckwalter cs) =
      translitChar c :: arabic_to_buckwalter cs
    rw [translitChar_idem, ih]

end AuxiliaryASR
